import Mathlib

/-!
Verification development for `Metagenomics_pipeline4_V2/kraken_abundance_pipeline.py`.

Python strings are modelled as lists of characters (`PyStr`); the string
operations the source uses (`split`, `join`, `strip`, `replace`, `count`,
`endswith`, `int(...)`) are implemented below with Python semantics.
Report lines are modelled either as raw character lists (for the functions
that split lines themselves) or as lists of already-tokenized tab fields
(for the `pandas.read_csv` based reader).
-/

abbrev PyStr := List Char

deriving instance DecidableEq for Except

/-- Models Python `s.split(c)` for a one-character separator: separator-free
chunks in order, empty chunks kept, result never empty. -/
def splitChar (c : Char) : PyStr → List PyStr
  | [] => [[]]
  | x :: xs =>
    match splitChar c xs with
    | [] => [[]]
    | t :: ts => if x = c then [] :: t :: ts else (x :: t) :: ts

/-- Models Python `c.join(parts)` for a one-character separator. -/
def joinChar (c : Char) : List PyStr → PyStr
  | [] => []
  | [t] => t
  | t :: ts => t ++ c :: joinChar c ts

/-- Models Python `s.strip()` (strip surrounding whitespace). -/
def pyStrip (s : PyStr) : PyStr :=
  ((s.dropWhile Char.isWhitespace).reverse.dropWhile Char.isWhitespace).reverse

/-- Boolean test that `p` is a leading segment of `s`. -/
def isPre : PyStr → PyStr → Bool
  | [], _ => true
  | _ :: _, [] => false
  | a :: as, b :: bs => a == b && isPre as bs

/-- Boolean substring test, models Python `pat in s`. -/
def containsB (pat : PyStr) : PyStr → Bool
  | [] => isPre pat []
  | s@(_ :: xs) => isPre pat s || containsB pat xs

/-- Number of positions of `s` at which `pat` starts (used to say a suffix
occurs exactly once in a filename). -/
def countOcc (pat : PyStr) : PyStr → Nat
  | [] => if isPre pat [] then 1 else 0
  | s@(_ :: xs) => (if isPre pat s then 1 else 0) + countOcc pat xs

/-- Fuel-driven scanner behind `pyReplace`: scan left to right, removing each
non-overlapping occurrence of `pat`. Each step consumes at least one
character, so `s.length` fuel always suffices. -/
def pyReplaceF (pat : PyStr) : Nat → PyStr → PyStr
  | 0, s => s
  | _ + 1, [] => []
  | fuel + 1, x :: xs =>
    if !pat.isEmpty && isPre pat (x :: xs) then
      pyReplaceF pat fuel ((x :: xs).drop pat.length)
    else
      x :: pyReplaceF pat fuel xs

/-- Models Python `s.replace(pat, '')`. -/
def pyReplace (pat s : PyStr) : PyStr := pyReplaceF pat s.length s

/-- Decimal-digit parse helper for `pyInt`. -/
def digitsToNat (ds : PyStr) : Option Nat :=
  if ds ≠ [] ∧ ds.all Char.isDigit then
    some (ds.foldl (fun a c => 10 * a + (c.toNat - 48)) 0)
  else none

/-- Models Python `int(s)` on report fields: optional surrounding whitespace,
optional sign, then decimal digits; anything else raises `ValueError`,
modelled as `none`. (Digit-grouping underscores are not modelled.) -/
def pyInt (s : PyStr) : Option Int :=
  match pyStrip s with
  | '-' :: ds => (digitsToNat ds).map (fun n => -(n : Int))
  | '+' :: ds => (digitsToNat ds).map (fun n => (n : Int))
  | ds => (digitsToNat ds).map (fun n => (n : Int))

/-- Models Python `s.endswith(suf)`. -/
def endsWithB (suf s : PyStr) : Bool := isPre suf.reverse s.reverse

/-- Python-dict insertion on an ordered association list: an existing key is
updated in place, a new key is appended at the end. -/
def dictInsert {α β : Type} [DecidableEq α] (k : α) (v : β) : List (α × β) → List (α × β)
  | [] => [(k, v)]
  | (k', v') :: d => if k' = k then (k, v) :: d else (k', v') :: dictInsert k v d

/-- Lookup in an ordered association list (first match). -/
def dictLookup {α β : Type} [DecidableEq α] (k : α) : List (α × β) → Option β
  | [] => none
  | (k', v') :: d => if k' = k then some v' else dictLookup k d

/-- Models `remove_first_kraken` from the source: split the filename on
underscores; if the token `kraken` appears more than once, delete only its
first occurrence and rejoin; otherwise return the input unchanged. -/
def remove_first_kraken (filename : PyStr) : PyStr :=
  if 1 < (splitChar '_' filename).count "kraken".data then
    joinChar '_' ((splitChar '_' filename).erase "kraken".data)
  else filename

/-- C8: `remove_first_kraken` removes exactly the first underscore-separated
occurrence of the token `kraken` when that token occurs at least twice among
the split parts (leaving every later occurrence intact), and returns the
input unchanged when the token occurs at most once. -/
theorem remove_first_kraken_spec (s : PyStr) :
    (2 ≤ (splitChar '_' s).count "kraken".data →
      ∃ pre post,
        splitChar '_' s = pre ++ "kraken".data :: post ∧
        "kraken".data ∉ pre ∧
        remove_first_kraken s = joinChar '_' (pre ++ post) ∧
        (pre ++ post).count "kraken".data = (splitChar '_' s).count "kraken".data - 1) ∧
    ((splitChar '_' s).count "kraken".data ≤ 1 → remove_first_kraken s = s) := by
  constructor
  · intro h
    have hmem : "kraken".data ∈ splitChar '_' s := List.count_pos_iff.mp (by omega)
    obtain ⟨pre, post, hpre, heq, herase⟩ := List.exists_erase_eq hmem
    refine ⟨pre, post, heq, hpre, ?_, ?_⟩
    · unfold remove_first_kraken
      rw [if_pos (by omega), herase]
    · rw [← herase]
      exact List.count_erase_self _ _
  · intro h
    unfold remove_first_kraken
    rw [if_neg (by omega)]

/-- Witness for C8: both branches of `remove_first_kraken_spec` applied at
concrete filenames. -/
theorem remove_first_kraken_spec_witness :
    (2 ≤ (splitChar '_' "s_kraken_Viruses_kraken_report.txt".data).count "kraken".data ∧
      ∃ pre post,
        splitChar '_' "s_kraken_Viruses_kraken_report.txt".data
          = pre ++ "kraken".data :: post ∧
        "kraken".data ∉ pre ∧
        remove_first_kraken "s_kraken_Viruses_kraken_report.txt".data
          = joinChar '_' (pre ++ post) ∧
        (pre ++ post).count "kraken".data
          = (splitChar '_' "s_kraken_Viruses_kraken_report.txt".data).count "kraken".data - 1) ∧
    ((splitChar '_' "s_kraken_report.txt".data).count "kraken".data ≤ 1 ∧
      remove_first_kraken "s_kraken_report.txt".data = "s_kraken_report.txt".data) :=
  ⟨⟨by decide, (remove_first_kraken_spec _).1 (by decide)⟩,
   ⟨by decide, (remove_first_kraken_spec _).2 (by decide)⟩⟩

theorem splitChar_ne_nil (c : Char) (s : PyStr) : splitChar c s ≠ [] := by
  cases s with
  | nil => simp [splitChar]
  | cons x xs =>
    simp only [splitChar]
    cases h : splitChar c xs with
    | nil => simp
    | cons t ts => by_cases hx : x = c <;> simp [hx]

theorem splitChar_cons (c x : Char) (xs t : PyStr) (ts : List PyStr)
    (h : splitChar c xs = t :: ts) :
    splitChar c (x :: xs) = if x = c then [] :: t :: ts else (x :: t) :: ts := by
  simp only [splitChar, h]

theorem joinChar_cons2 (c : Char) (t t2 : PyStr) (ts : List PyStr) :
    joinChar c (t :: t2 :: ts) = t ++ c :: joinChar c (t2 :: ts) := rfl

theorem joinChar_splitChar (c : Char) (s : PyStr) : joinChar c (splitChar c s) = s := by
  induction s with
  | nil => simp [splitChar, joinChar]
  | cons x xs ih =>
    cases h : splitChar c xs with
    | nil => exact absurd h (splitChar_ne_nil c xs)
    | cons t ts =>
      rw [splitChar_cons c x xs t ts h]
      rw [h] at ih
      by_cases hx : x = c
      · subst hx
        rw [if_pos rfl, joinChar_cons2, ih]
        simp
      · rw [if_neg hx]
        cases ts with
        | nil =>
          simp only [joinChar] at ih ⊢
          rw [ih]
        | cons t2 ts2 =>
          rw [joinChar_cons2] at ih ⊢
          rw [← ih]
          simp

theorem splitChar_append (c : Char) (a b : PyStr) :
    splitChar c (a ++ c :: b) = splitChar c a ++ splitChar c b := by
  induction a with
  | nil =>
    cases h : splitChar c b with
    | nil => exact absurd h (splitChar_ne_nil c b)
    | cons t ts =>
      rw [List.nil_append, splitChar_cons c c b t ts h, if_pos rfl]
      rfl

  | cons x a' ih =>
    cases h : splitChar c a' with
    | nil => exact absurd h (splitChar_ne_nil c a')
    | cons t ts =>
      have hl : splitChar c (a' ++ c :: b) = t :: (ts ++ splitChar c b) := by
        rw [ih, h]; rfl
      rw [List.cons_append, splitChar_cons c x (a' ++ c :: b) _ _ hl,
        splitChar_cons c x a' t ts h]
      by_cases hx : x = c <;> simp [hx]

theorem not_mem_of_mem_splitChar (c : Char) (s : PyStr) :
    ∀ t ∈ splitChar c s, c ∉ t := by
  induction s with
  | nil => simp [splitChar]
  | cons x xs ih =>
    cases h : splitChar c xs with
    | nil => exact absurd h (splitChar_ne_nil c xs)
    | cons t ts =>
      rw [splitChar_cons c x xs t ts h]
      rw [h] at ih
      by_cases hx : x = c
      · subst hx
        rw [if_pos rfl]
        intro u hu
        rcases List.mem_cons.mp hu with h1 | h1
        · subst h1; simp
        · exact ih u h1
      · rw [if_neg hx]
        intro u hu
        rcases List.mem_cons.mp hu with h1 | h1
        · subst h1
          intro hc
          rcases List.mem_cons.mp hc with h2 | h2
          · exact hx h2.symm
          · exact ih t (List.mem_cons_self t ts) h2
        · exact ih u (List.mem_cons_of_mem t h1)

theorem splitChar_of_not_mem (c : Char) (t : PyStr) (h : c ∉ t) : splitChar c t = [t] := by
  induction t with
  | nil => simp [splitChar]
  | cons x t' ih =>
    have hx : x ≠ c := fun he => h (he ▸ List.mem_cons_self x t')
    have ht' : c ∉ t' := fun hm => h (List.mem_cons_of_mem x hm)
    simp only [splitChar, ih ht', if_neg hx]

theorem splitChar_joinChar (c : Char) (ts : List PyStr) (h1 : ts ≠ [])
    (h2 : ∀ t ∈ ts, c ∉ t) : splitChar c (joinChar c ts) = ts := by
  induction ts with
  | nil => exact absurd rfl h1
  | cons t rest ih =>
    cases rest with
    | nil =>
      simp only [joinChar]
      exact splitChar_of_not_mem c t (h2 t (List.mem_cons_self t []))
    | cons t2 rest2 =>
      have : joinChar c (t :: t2 :: rest2) = t ++ c :: joinChar c (t2 :: rest2) := rfl
      rw [this, splitChar_append,
        splitChar_of_not_mem c t (h2 t (List.mem_cons_self t _)),
        ih (by simp) (fun u hu => h2 u (List.mem_cons_of_mem t hu))]
      simp

theorem pyReplaceF_nil (pat : PyStr) (fuel : Nat) : pyReplaceF pat fuel [] = [] := by
  cases fuel <;> rfl

theorem pyReplaceF_of_not_contains (pat : PyStr) :
    ∀ (fuel : Nat) (s : PyStr), s.length ≤ fuel → containsB pat s = false →
      pyReplaceF pat fuel s = s := by
  intro fuel
  induction fuel with
  | zero => intro s _ _; rfl
  | succ f ih =>
    intro s hlen hc
    cases s with
    | nil => rfl
    | cons x xs =>
      have hor : (isPre pat (x :: xs) || containsB pat xs) = false := hc
      have h1 : isPre pat (x :: xs) = false := by
        cases hp : isPre pat (x :: xs) <;> simp_all
      have h2 : containsB pat xs = false := by
        cases hp : containsB pat xs <;> simp_all
      simp only [pyReplaceF]
      rw [if_neg (by simp [h1])]
      rw [ih xs (by simpa using Nat.le_of_succ_le_succ hlen) h2]

theorem pyReplace_of_not_contains (pat s : PyStr) (h : containsB pat s = false) :
    pyReplace pat s = s :=
  pyReplaceF_of_not_contains pat s.length s le_rfl h

theorem isPre_self_append (p r : PyStr) : isPre p (p ++ r) = true := by
  induction p with
  | nil => rfl
  | cons a as ih => simp [isPre, ih]

theorem countOcc_append_self_one_le (pat A : PyStr) (hp : pat ≠ []) :
    1 ≤ countOcc pat (A ++ pat) := by
  induction A with
  | nil =>
    cases pat with
    | nil => exact absurd rfl hp
    | cons p ps =>
      simp only [List.nil_append, countOcc]
      have : isPre (p :: ps) (p :: ps) = true := by
        have := isPre_self_append (p :: ps) []
        simpa using this
      rw [if_pos this]
      omega
  | cons x A' ih =>
    simp only [List.cons_append, countOcc]
    by_cases h : isPre pat (x :: (A' ++ pat)) = true
    · simp_all
    · simp_all


theorem pyReplaceF_unique_tail (pat : PyStr) (hp : pat ≠ []) :
    ∀ (A : PyStr) (fuel : Nat), (A ++ pat).length ≤ fuel →
      countOcc pat (A ++ pat) = 1 → pyReplaceF pat fuel (A ++ pat) = A := by
  intro A
  induction A with
  | nil =>
    intro fuel hlen _
    cases pat with
    | nil => exact absurd rfl hp
    | cons p ps =>
      cases fuel with
      | zero => simp at hlen
      | succ f =>
        simp only [List.nil_append, pyReplaceF]
        rw [if_pos]
        · have : (p :: ps).drop (p :: ps).length = [] := by
            simp [List.drop_length]
          rw [this, pyReplaceF_nil]
        · have := isPre_self_append (p :: ps) []
          simp at this
          simp [this]
  | cons x A' ih =>
    intro fuel hlen hcnt
    cases fuel with
    | zero => simp at hlen
    | succ f =>
      have htail1 : 1 ≤ countOcc pat (A' ++ pat) := countOcc_append_self_one_le pat A' hp
      have hcons : countOcc pat ((x :: A') ++ pat)
          = (if isPre pat (x :: (A' ++ pat)) then 1 else 0) + countOcc pat (A' ++ pat) := by
        simp [countOcc]
      have hpre : isPre pat (x :: (A' ++ pat)) = false := by
        by_cases h : isPre pat (x :: (A' ++ pat)) = true
        · rw [hcons, if_pos h] at hcnt; omega
        · simpa using h
      have hcnt' : countOcc pat (A' ++ pat) = 1 := by
        rw [hcons, if_neg (by simp [hpre])] at hcnt
        omega
      have hrec := ih f (by simp at hlen ⊢; omega) hcnt'
      simp only [List.cons_append, pyReplaceF]
      rw [if_neg (by simp [hpre])]
      exact congrArg (fun l => x :: l) hrec

theorem pyReplace_unique_tail (pat A : PyStr) (hp : pat ≠ [])
    (hcnt : countOcc pat (A ++ pat) = 1) : pyReplace pat (A ++ pat) = A :=
  pyReplaceF_unique_tail pat hp A (A ++ pat).length le_rfl hcnt

/-- The fixed kraken-report filename suffix. -/
def kraken_report_suffix : PyStr := "_kraken_report.txt".data

/-- Models the per-filename sample-id extraction in `generate_sample_ids_csv`:
`fname.replace('_kraken_report.txt', '')`. -/
def sample_id_from_filename (fname : PyStr) : PyStr :=
  pyReplace kraken_report_suffix fname

/-- Models the aggregation join key built inside `aggregate_kraken_results`
(and `generate_unfiltered_merged_tsv`): `'_'.join(file_name.split('_')[:-2])`. -/
def extracted_part (fname : PyStr) : PyStr :=
  joinChar '_' ((splitChar '_' fname).take ((splitChar '_' fname).length - 2))

/-- C10: for a filename that ends with `_kraken_report.txt` and contains that
suffix exactly once, the sample id synthesized by `generate_sample_ids_csv`
(suffix stripping) equals the aggregation join key of
`aggregate_kraken_results` (drop the last two underscore-separated tokens). -/
theorem sample_id_matches_extracted_part (stem : PyStr)
    (honce : countOcc kraken_report_suffix (stem ++ kraken_report_suffix) = 1) :
    sample_id_from_filename (stem ++ kraken_report_suffix)
      = extracted_part (stem ++ kraken_report_suffix) := by
  have hsuffix : kraken_report_suffix = '_' :: "kraken_report.txt".data := rfl
  have hleft : sample_id_from_filename (stem ++ kraken_report_suffix) = stem :=
    pyReplace_unique_tail kraken_report_suffix stem (by decide) honce
  have hsplit2 : splitChar '_' "kraken_report.txt".data
      = ["kraken".data, "report.txt".data] := by decide
  have hsplit : splitChar '_' (stem ++ kraken_report_suffix)
      = splitChar '_' stem ++ ["kraken".data, "report.txt".data] := by
    rw [hsuffix, splitChar_append, hsplit2]
  have hlen : (splitChar '_' (stem ++ kraken_report_suffix)).length - 2
      = (splitChar '_' stem).length := by
    rw [hsplit]; simp
  rw [hleft]
  unfold extracted_part
  rw [hlen, hsplit, List.take_left, joinChar_splitChar]

/-- Witness for C10 at the concrete filename `A_1_kraken_report.txt`. -/
theorem sample_id_matches_extracted_part_witness :
    countOcc kraken_report_suffix ("A_1".data ++ kraken_report_suffix) = 1 ∧
    sample_id_from_filename ("A_1".data ++ kraken_report_suffix)
      = extracted_part ("A_1".data ++ kraken_report_suffix) :=
  ⟨by decide, sample_id_matches_extracted_part "A_1".data (by decide)⟩

/-- The fixed domain-label vocabulary used by the callers of
`clean_sample_name`. -/
def domain_labels : List PyStr :=
  ["Viruses".data, "Eukaryota".data, "Bacteria".data, "Archaea".data]

/-- Models `clean_sample_name` from the source: remove every `_report.txt`
occurrence, split the rest on underscores, drop tokens that equal a domain
label, and rejoin with underscores. -/
def clean_sample_name (file_name : PyStr) (labels : List PyStr) : PyStr :=
  joinChar '_'
    ((splitChar '_' (pyReplace "_report.txt".data file_name)).filter
      (fun p => !labels.contains p))

/-- C9 (amended): `clean_sample_name` with the fixed domain vocabulary is
idempotent on every filename whose cleaned output does not itself contain the
substring `_report.txt`. (Removing all occurrences of `_report.txt` can splice
a new occurrence together, and a second application then shrinks the name
further — see the counterexample.) -/
theorem clean_sample_name_idem (f : PyStr)
    (h : containsB "_report.txt".data (clean_sample_name f domain_labels) = false) :
    clean_sample_name (clean_sample_name f domain_labels) domain_labels
      = clean_sample_name f domain_labels := by
  have expand : clean_sample_name (clean_sample_name f domain_labels) domain_labels
      = joinChar '_'
          ((splitChar '_'
              (pyReplace "_report.txt".data (clean_sample_name f domain_labels))).filter
            (fun p => !domain_labels.contains p)) := rfl
  rw [expand, pyReplace_of_not_contains _ _ h]
  have hcs : clean_sample_name f domain_labels
      = joinChar '_'
          ((splitChar '_' (pyReplace "_report.txt".data f)).filter
            (fun p => !domain_labels.contains p)) := rfl
  cases hts : (splitChar '_' (pyReplace "_report.txt".data f)).filter
      (fun p => !domain_labels.contains p) with
  | nil =>
    rw [hcs, hts]
    decide
  | cons t0 rest =>
    have hfree : ∀ t ∈ (splitChar '_' (pyReplace "_report.txt".data f)).filter
        (fun p => !domain_labels.contains p), '_' ∉ t := fun t ht =>
      not_mem_of_mem_splitChar '_' _ t (List.mem_of_mem_filter ht)
    have hpred : ∀ t ∈ (splitChar '_' (pyReplace "_report.txt".data f)).filter
        (fun p => !domain_labels.contains p), (!domain_labels.contains t) = true :=
      fun t ht => (List.mem_filter.mp ht).2
    rw [hcs, splitChar_joinChar '_' _ (by rw [hts]; simp) hfree,
      List.filter_eq_self.mpr hpred]

/-- Witness for C9's amended theorem at the filename
`sample1_Viruses_kraken_report.txt`. -/
theorem clean_sample_name_idem_witness :
    containsB "_report.txt".data
        (clean_sample_name "sample1_Viruses_kraken_report.txt".data domain_labels) = false ∧
    clean_sample_name
        (clean_sample_name "sample1_Viruses_kraken_report.txt".data domain_labels)
        domain_labels
      = clean_sample_name "sample1_Viruses_kraken_report.txt".data domain_labels :=
  ⟨by decide, clean_sample_name_idem "sample1_Viruses_kraken_report.txt".data (by decide)⟩

/-- Counterexample to C9 as stated: on `a_repor_report.txtt.txt`, removing the
single `_report.txt` occurrence splices a new `_report.txt` occurrence
together (`a_repor` + `t.txt` = `a_report.txt`), so a second application of
`clean_sample_name` strips it again and the extraction is not idempotent. -/
theorem clean_sample_name_not_idem :
    clean_sample_name
        (clean_sample_name "a_repor_report.txtt.txt".data domain_labels) domain_labels
      ≠ clean_sample_name "a_repor_report.txtt.txt".data domain_labels := by decide

/-- A row of the `pd.read_csv` kraken-report reader: the six named columns in
order (`Percentage, Reads_Covered, Reads_Assigned, Rank_Code, NCBI_TaxID,
Scientific_Name`), each either a text field or missing (`none` models `NaN`). -/
abbrev PRow := List (Option PyStr)

/-- Field `i` of a tokenized line as read by `pd.read_csv`: a missing or empty
field becomes `NaN` (`none`). -/
def pdField (fs : List PyStr) (i : Nat) : Option PyStr :=
  match fs.get? i with
  | none => none
  | some [] => none
  | some s => some s

/-- One row of `pd.read_csv(path, sep='\t', header=None, names=[..6 names..])`
from a tokenized line: the six columns in order, with short lines padded by
`NaN`. Numeric dtype inference is not modelled (values stay as the raw field
text), and lines with more than six fields are outside the modelled input
space. -/
def readCsvRow (fs : List PyStr) : PRow :=
  [pdField fs 0, pdField fs 1, pdField fs 2, pdField fs 3, pdField fs 4, pdField fs 5]

/-- The `Rank_Code` column of a row. -/
def rankCodeOf (r : PRow) : Option PyStr := r.getD 3 none

/-- The `Scientific_Name` column of a row. -/
def sciNameOf (r : PRow) : Option PyStr := r.getD 5 none

/-- Python truthiness of a `current_domain` value: `NaN` is truthy, a string
is truthy iff non-empty. -/
def truthyName : Option PyStr → Bool
  | none => true
  | some s => !s.isEmpty

/-- The comparison `row["Rank_Code"] == "D"` (false on `NaN`). -/
def isDRow (r : PRow) : Bool := rankCodeOf r == some "D".data

/-- The scan of `extract_domains_from_kraken_report`, instrumented: it returns
the result mapping (a Python dict in insertion order, `Scientific_Name` key of
the opening `D` row to block of rows) together with the ordered log of
flushed (emitted) blocks. The log is write-only and does not influence the
mapping. -/
def segLoopE : List PRow → Option (Option PyStr) → List PRow →
    List (Option PyStr × List PRow) → List (Option PyStr × List PRow) →
    List (Option PyStr × List PRow) × List (Option PyStr × List PRow)
  | [], curD, curRows, doms, log =>
    (match curD with
     | some d =>
       if truthyName d then (dictInsert d curRows doms, log ++ [(d, curRows)])
       else (doms, log)
     | none => (doms, log))
  | r :: rs, curD, curRows, doms, log =>
    if isDRow r then
      match curD with
      | some d =>
        if truthyName d then
          segLoopE rs (some (sciNameOf r)) [r] (dictInsert d curRows doms)
            (log ++ [(d, curRows)])
        else
          segLoopE rs (some (sciNameOf r)) [r] doms log
      | none => segLoopE rs (some (sciNameOf r)) [r] doms log
    else
      segLoopE rs curD (curRows ++ [r]) doms log

/-- Models `extract_domains_from_kraken_report`: read the file with pandas and
return the domain-name-to-block mapping. -/
def extract_domains_from_kraken_report (lines : List (List PyStr)) :
    List (Option PyStr × List PRow) :=
  (segLoopE (lines.map readCsvRow) none [] [] []).1

/-- The ordered log of blocks flushed by `extract_domains_from_kraken_report`
(each `domains[current_domain] = pd.DataFrame(current_rows)` assignment). -/
def extract_domains_emitted (lines : List (List PyStr)) :
    List (Option PyStr × List PRow) :=
  (segLoopE (lines.map readCsvRow) none [] [] []).2

/-- All rows of a block mapping, in mapping order. -/
def blocksRows (doms : List (Option PyStr × List PRow)) : List PRow :=
  (doms.map Prod.snd).flatten

/-- The scientific names of the `D`-ranked rows, in order. -/
def dNames (rows : List PRow) : List (Option PyStr) :=
  (rows.filter (fun r => isDRow r)).map sciNameOf

/-- Models the per-line scan of `process_output_report`: split each line on
tabs after stripping, skip lines with fewer than six fields, start a new
block at each `D`-ranked line, and log a `save_domain_data` call for every
flushed block (domain name paired with the raw saved lines). -/
def poLoop : List PyStr → Option PyStr → List PyStr → List (PyStr × List PyStr) →
    List (PyStr × List PyStr)
  | [], curD, curRows, saves =>
    (match curD with
     | some d => if !d.isEmpty then saves ++ [(d, curRows)] else saves
     | none => saves)
  | line :: rest, curD, curRows, saves =>
    if (splitChar '\t' (pyStrip line)).length < 6 then
      poLoop rest curD curRows saves
    else if (splitChar '\t' (pyStrip line)).getD 3 [] = "D".data then
      match curD with
      | some d =>
        if !d.isEmpty then
          poLoop rest (some ((splitChar '\t' (pyStrip line)).getD 5 [])) [line]
            (saves ++ [(d, curRows)])
        else
          poLoop rest (some ((splitChar '\t' (pyStrip line)).getD 5 [])) [line] saves
      | none => poLoop rest (some ((splitChar '\t' (pyStrip line)).getD 5 [])) [line] saves
    else
      poLoop rest curD (curRows ++ [line]) saves

/-- Models `process_output_report` on a file's lines: the ordered log of
`save_domain_data(domain, rows, ...)` calls it performs. -/
def process_output_report (lines : List PyStr) : List (PyStr × List PyStr) :=
  poLoop lines none [] []

/-- Models the output filename built by `save_domain_data`:
`f"{domain.replace(' ', '')}_output_report.txt"`. -/
def save_domain_data_filename (domain : PyStr) : PyStr :=
  pyReplace " ".data domain ++ "_output_report.txt".data

/-- Models the per-domain output filename built in `process_kraken_reports`:
`remove_first_kraken(f"{sample_name}_{domain.replace(' ', '')}_kraken_report.txt")`. -/
def kraken_domain_output_filename (sample_name domain : PyStr) : PyStr :=
  remove_first_kraken
    (sample_name ++ '_' :: (pyReplace " ".data domain ++ "_kraken_report.txt".data))

theorem dictInsert_of_not_mem_keys {α β : Type} [DecidableEq α] (k : α) (v : β)
    (d : List (α × β)) (h : k ∉ d.map Prod.fst) : dictInsert k v d = d ++ [(k, v)] := by
  induction d with
  | nil => rfl
  | cons e d' ih =>
    obtain ⟨k', v'⟩ := e
    simp only [List.map_cons, List.mem_cons] at h
    push_neg at h
    have hne : ¬k' = k := fun he => h.1 he.symm
    simp only [dictInsert, if_neg hne, List.cons_append]
    exact congrArg (fun l => (k', v') :: l) (ih h.2)

theorem dictLookup_dictInsert_self {α β : Type} [DecidableEq α] (k : α) (v : β)
    (d : List (α × β)) : dictLookup k (dictInsert k v d) = some v := by
  induction d with
  | nil => simp [dictInsert, dictLookup]
  | cons e d' ih =>
    obtain ⟨k', v'⟩ := e
    by_cases h : k' = k
    · subst h; simp [dictInsert, dictLookup]
    · simp [dictInsert, dictLookup, h, ih]

theorem dictLookup_dictInsert_ne {α β : Type} [DecidableEq α] {k k' : α} (v : β)
    (d : List (α × β)) (h : k' ≠ k) :
    dictLookup k' (dictInsert k v d) = dictLookup k' d := by
  induction d with
  | nil =>
    have hne : ¬k = k' := fun he => h he.symm
    simp [dictInsert, dictLookup, hne]
  | cons e d' ih =>
    obtain ⟨a, b⟩ := e
    by_cases ha : a = k
    · subst ha
      have hne : ¬a = k' := fun he => h he.symm
      simp [dictInsert, dictLookup, hne]
    · simp [dictInsert, dictLookup, ha, ih]

theorem filter_getLast_concat {α : Type} (p : α → Bool) (l : List α) (x : α) :
    ((l ++ [x]).filter p).getLast? = if p x then some x else (l.filter p).getLast? := by
  rw [List.filter_append]
  by_cases h : p x = true
  · simp [h]
  · simp [List.filter_singleton, h]

theorem blocksRows_append (a b : List (Option PyStr × List PRow)) :
    blocksRows (a ++ b) = blocksRows a ++ blocksRows b := by
  simp [blocksRows]

theorem truthyName_readCsvRow (fs : List PyStr) :
    truthyName (sciNameOf (readCsvRow fs)) = true := by
  have h : sciNameOf (readCsvRow fs) = pdField fs 5 := rfl
  rw [h]
  unfold pdField
  cases hg : fs.get? 5 with
  | none => rfl
  | some s => cases s <;> rfl

theorem dNames_cons_d (r : PRow) (rs : List PRow) (h : isDRow r = true) :
    dNames (r :: rs) = sciNameOf r :: dNames rs := by
  simp [dNames, List.filter_cons, h]

theorem dNames_cons_not_d (r : PRow) (rs : List PRow) (h : ¬isDRow r = true) :
    dNames (r :: rs) = dNames rs := by
  simp [dNames, List.filter_cons, h]

theorem segLoopE_flatten_some (rs : List PRow) :
    ∀ (d : Option PyStr) (cur : List PRow) (doms log : List (Option PyStr × List PRow)),
      truthyName d = true →
      (∀ r ∈ rs, isDRow r = true → truthyName (sciNameOf r) = true) →
      (dNames rs).Nodup →
      d ∉ dNames rs →
      (∀ k ∈ dNames rs, k ∉ doms.map Prod.fst) →
      d ∉ doms.map Prod.fst →
      blocksRows (segLoopE rs (some d) cur doms log).1 = blocksRows doms ++ cur ++ rs := by
  induction rs with
  | nil =>
    intro d cur doms log htr _ _ _ _ hdk
    simp only [segLoopE, if_pos htr]
    rw [dictInsert_of_not_mem_keys _ _ _ hdk, blocksRows_append]
    simp [blocksRows]
  | cons r rs' ih =>
    intro d cur doms log htr hH hnd hdn hdisj hdk
    by_cases hD : isDRow r = true
    · have hnames := dNames_cons_d r rs' hD
      rw [hnames] at hnd hdn hdisj
      have hnd' := (List.nodup_cons.mp hnd).2
      have hsci_notin := (List.nodup_cons.mp hnd).1
      have hdn' : d ∉ dNames rs' := fun hm => hdn (List.mem_cons_of_mem _ hm)
      have hdne : d ≠ sciNameOf r := fun he => hdn (he ▸ List.mem_cons_self _ _)
      simp only [segLoopE, if_pos hD, if_pos htr]
      rw [dictInsert_of_not_mem_keys _ _ _ hdk]
      rw [ih (sciNameOf r) [r] (doms ++ [(d, cur)]) (log ++ [(d, cur)])
        (hH r (List.mem_cons_self _ _) hD)
        (fun r' hr' => hH r' (List.mem_cons_of_mem _ hr'))
        hnd' hsci_notin
        (fun k hk => by
          simp only [List.map_append, List.mem_append, List.map_cons, List.map_nil,
            List.mem_singleton]
          push_neg
          exact ⟨hdisj k (List.mem_cons_of_mem _ hk), fun he => hdn' (he ▸ hk)⟩)
        (by
          simp only [List.map_append, List.mem_append, List.map_cons, List.map_nil,
            List.mem_singleton]
          push_neg
          exact ⟨hdisj (sciNameOf r) (List.mem_cons_self _ _), fun he => hdne he.symm⟩)]
      rw [blocksRows_append]
      simp [blocksRows]
    · have hnames := dNames_cons_not_d r rs' hD
      rw [hnames] at hnd hdn hdisj
      simp only [segLoopE, if_neg hD]
      rw [ih d (cur ++ [r]) doms log htr
        (fun r' hr' => hH r' (List.mem_cons_of_mem _ hr')) hnd hdn hdisj hdk]
      simp

theorem segLoopE_flatten_none (rs : List PRow) :
    ∀ (cur : List PRow) (doms log : List (Option PyStr × List PRow)),
      (∀ r ∈ rs, isDRow r = true → truthyName (sciNameOf r) = true) →
      (dNames rs).Nodup →
      (∀ k ∈ dNames rs, k ∉ doms.map Prod.fst) →
      blocksRows (segLoopE rs none cur doms log).1
        = blocksRows doms ++ rs.dropWhile (fun r => !isDRow r) := by
  induction rs with
  | nil =>
    intro cur doms log _ _ _
    simp [segLoopE]
  | cons r rs' ih =>
    intro cur doms log hH hnd hdisj
    by_cases hD : isDRow r = true
    · have hnames := dNames_cons_d r rs' hD
      rw [hnames] at hnd hdisj
      simp only [segLoopE, if_pos hD]
      rw [segLoopE_flatten_some rs' (sciNameOf r) [r] doms log
        (hH r (List.mem_cons_self _ _) hD)
        (fun r' hr' => hH r' (List.mem_cons_of_mem _ hr'))
        (List.nodup_cons.mp hnd).2
        (List.nodup_cons.mp hnd).1
        (fun k hk => hdisj k (List.mem_cons_of_mem _ hk))
        (hdisj (sciNameOf r) (List.mem_cons_self _ _))]
      rw [List.dropWhile_cons]
      simp [hD]
    · have hnames := dNames_cons_not_d r rs' hD
      rw [hnames] at hnd hdisj
      simp only [segLoopE, if_neg hD]
      rw [ih (cur ++ [r]) doms log
        (fun r' hr' => hH r' (List.mem_cons_of_mem _ hr')) hnd hdisj]
      rw [List.dropWhile_cons]
      simp [hD]

/-- C3 (amended): when the scientific names of the `D`-ranked rows are
pairwise distinct, the blocks produced by `extract_domains_from_kraken_report`
partition the parsed rows from the first `D` row onward: their concatenation,
in mapping order, is exactly that suffix (nothing lost, nothing duplicated,
relative order preserved). When a domain name repeats, the later block
overwrites the earlier one in the mapping and the earlier block's rows are
lost — see the counterexample. -/
theorem extract_domains_partition (lines : List (List PyStr))
    (hnodup : (dNames (lines.map readCsvRow)).Nodup) :
    blocksRows (extract_domains_from_kraken_report lines)
      = (lines.map readCsvRow).dropWhile (fun r => !isDRow r) := by
  unfold extract_domains_from_kraken_report
  rw [segLoopE_flatten_none (lines.map readCsvRow) [] [] []
    (fun r hr _ => by
      rcases List.mem_map.mp hr with ⟨fs, _, rfl⟩
      exact truthyName_readCsvRow fs)
    hnodup
    (fun k _ => by simp)]
  simp [blocksRows]

/-- Witness for C3's amended theorem: a two-row report with one domain
header. -/
theorem extract_domains_partition_witness :
    (dNames ([["10.0".data, "100".data, "100".data, "D".data, "2".data, "Bacteria".data],
        ["5.0".data, "50".data, "50".data, "S".data, "1234".data, "E coli".data]].map
          readCsvRow)).Nodup ∧
    blocksRows (extract_domains_from_kraken_report
        [["10.0".data, "100".data, "100".data, "D".data, "2".data, "Bacteria".data],
         ["5.0".data, "50".data, "50".data, "S".data, "1234".data, "E coli".data]])
      = ([["10.0".data, "100".data, "100".data, "D".data, "2".data, "Bacteria".data],
          ["5.0".data, "50".data, "50".data, "S".data, "1234".data, "E coli".data]].map
            readCsvRow).dropWhile (fun r => !isDRow r) :=
  ⟨by decide, extract_domains_partition _ (by decide)⟩

/-- Counterexample to C3 as stated: two `D` rows with the same scientific name
`X` — the second block overwrites the first in the result mapping, so the
union of the blocks' rows is only the second row, not the whole suffix from
the first `D` row. -/
theorem extract_domains_partition_cex :
    blocksRows (extract_domains_from_kraken_report
        [["1".data, "2".data, "3".data, "D".data, "4".data, "X".data],
         ["5".data, "6".data, "7".data, "D".data, "8".data, "X".data]])
      ≠ ([["1".data, "2".data, "3".data, "D".data, "4".data, "X".data],
          ["5".data, "6".data, "7".data, "D".data, "8".data, "X".data]].map
            readCsvRow).dropWhile (fun r => !isDRow r) := by decide

theorem segLoopE_log_length (rs : List PRow) :
    ∀ (curD : Option (Option PyStr)) (cur : List PRow)
      (doms log : List (Option PyStr × List PRow)),
      (∀ r ∈ rs, isDRow r = true → truthyName (sciNameOf r) = true) →
      (∀ d, curD = some d → truthyName d = true) →
      (segLoopE rs curD cur doms log).2.length
        = log.length + (rs.filter (fun r => isDRow r)).length
          + (if curD.isSome then 1 else 0) := by
  induction rs with
  | nil =>
    intro curD cur doms log _ hcur
    cases curD with
    | none => simp [segLoopE]
    | some d => simp [segLoopE, hcur d rfl]
  | cons r rs' ih =>
    intro curD cur doms log hH hcur
    by_cases hD : isDRow r = true
    · cases curD with
      | none =>
        simp only [segLoopE, if_pos hD]
        rw [ih (some (sciNameOf r)) [r] doms log
          (fun r' hr' => hH r' (List.mem_cons_of_mem _ hr'))
          (fun d hd => by cases hd; exact hH r (List.mem_cons_self _ _) hD)]
        simp [List.filter_cons, hD]
        omega
      | some d =>
        simp only [segLoopE, if_pos hD, if_pos (hcur d rfl)]
        rw [ih (some (sciNameOf r)) [r] (dictInsert d cur doms) (log ++ [(d, cur)])
          (fun r' hr' => hH r' (List.mem_cons_of_mem _ hr'))
          (fun d' hd' => by cases hd'; exact hH r (List.mem_cons_self _ _) hD)]
        simp [List.filter_cons, hD]
        omega
    · simp only [segLoopE, if_neg hD]
      rw [ih curD (cur ++ [r]) doms log
        (fun r' hr' => hH r' (List.mem_cons_of_mem _ hr')) hcur]
      simp [List.filter_cons, hD]

theorem dict_log_flush (dd : Option PyStr) (cur : List PRow)
    (doms log : List (Option PyStr × List PRow))
    (hinv : ∀ d, dictLookup d doms
      = ((log.filter (fun e => e.1 == d)).getLast?).map Prod.snd) :
    ∀ d, dictLookup d (dictInsert dd cur doms)
      = (((log ++ [(dd, cur)]).filter (fun e => e.1 == d)).getLast?).map Prod.snd := by
  intro d
  rw [filter_getLast_concat]
  by_cases hd : dd = d
  · subst hd
    rw [dictLookup_dictInsert_self]
    simp
  · rw [dictLookup_dictInsert_ne _ _ (fun he => hd he.symm)]
    have hbeq : ((dd, cur).1 == d) = false := by simp [hd]
    simp only [hbeq, if_false]
    exact hinv d

theorem segLoopE_lookup_log (rs : List PRow) :
    ∀ (curD : Option (Option PyStr)) (cur : List PRow)
      (doms log : List (Option PyStr × List PRow)),
      (∀ d, dictLookup d doms
        = ((log.filter (fun e => e.1 == d)).getLast?).map Prod.snd) →
      ∀ d, dictLookup d (segLoopE rs curD cur doms log).1
        = (((segLoopE rs curD cur doms log).2.filter
            (fun e => e.1 == d)).getLast?).map Prod.snd := by
  induction rs with
  | nil =>
    intro curD cur doms log hinv d
    cases curD with
    | none => simpa [segLoopE] using hinv d
    | some dd =>
      by_cases htr : truthyName dd = true
      · simp only [segLoopE, if_pos htr]
        exact dict_log_flush dd cur doms log hinv d
      · have hfalse : truthyName dd = false := by simpa using htr
        simpa [segLoopE, hfalse] using hinv d
  | cons r rs' ih =>
    intro curD cur doms log hinv d
    by_cases hD : isDRow r = true
    · cases curD with
      | none =>
        simp only [segLoopE, if_pos hD]
        exact ih (some (sciNameOf r)) [r] doms log hinv d
      | some dd =>
        by_cases htr : truthyName dd = true
        · simp only [segLoopE, if_pos hD, if_pos htr]
          exact ih (some (sciNameOf r)) [r] (dictInsert dd cur doms) (log ++ [(dd, cur)])
            (dict_log_flush dd cur doms log hinv) d
        · have hfalse : truthyName dd = false := by simpa using htr
          simp only [segLoopE, if_pos hD, hfalse, if_false, Bool.false_eq_true]
          exact ih (some (sciNameOf r)) [r] doms log hinv d
    · simp only [segLoopE, if_neg hD]
      exact ih curD (cur ++ [r]) doms log hinv d

/-- C4: the number of blocks emitted by the segmenter (flushes into the result
mapping) equals the number of `D`-ranked rows, and for every domain name the
result mapping holds exactly the last emitted block with that name (a
repeated domain name later in the file starts a new block that overwrites the
earlier one — last occurrence wins). -/
theorem extract_domains_block_count (lines : List (List PyStr)) :
    (extract_domains_emitted lines).length
      = ((lines.map readCsvRow).filter (fun r => isDRow r)).length ∧
    ∀ d, dictLookup d (extract_domains_from_kraken_report lines)
      = (((extract_domains_emitted lines).filter
          (fun e => e.1 == d)).getLast?).map Prod.snd := by
  constructor
  · have h := segLoopE_log_length (lines.map readCsvRow) none [] [] []
      (fun r hr _ => by
        rcases List.mem_map.mp hr with ⟨fs, _, rfl⟩
        exact truthyName_readCsvRow fs)
      (fun d hd => by cases hd)
    simpa [extract_domains_emitted] using h
  · intro d
    exact segLoopE_lookup_log (lines.map readCsvRow) none [] [] []
      (fun d' => by simp [dictLookup]) d

/-- A value stored in an aggregated record: the parsed count is a Python int,
every other field is a string. -/
inductive PyVal : Type
  | str : PyStr → PyVal
  | int : Int → PyVal
deriving DecidableEq

/-- Decimal rendering of an integer, modelling Python `str(n)`. -/
def intToPyStr (n : Int) : PyStr :=
  if n < 0 then '-' :: Nat.toDigits 10 n.natAbs else Nat.toDigits 10 n.toNat

/-- Python `str(...)` of a record value. -/
def pyValStr : PyVal → PyStr
  | .str s => s
  | .int n => intToPyStr n

/-- The metadata table (or the substituted sample-id table): column names and
aligned rows; the first column is the join key. -/
structure Metadata where
  cols : List PyStr
  rows : List (List PyStr)

/-- The values of the metadata table's first column
(`metadata[sample_id_col]`). -/
def firstColValues (m : Metadata) : List PyStr := m.rows.map (fun r => r.getD 0 [])

/-- An aggregated record: a Python dict from column name to value. -/
abbrev PyDict := List (PyStr × PyVal)

/-- Record access `data[col]`; every header column the source writes is
present in the record, so the default is never used on the source's reads. -/
def dictGet (d : PyDict) (k : PyStr) : PyVal := (dictLookup k d).getD (.str [])

/-- Models `...iloc[0].to_dict()`: a metadata row zipped with the column
names, built into a Python dict. -/
def metaRowDict (m : Metadata) (r : List PyStr) : PyDict :=
  ((m.cols.zip r).map (fun p => (p.1, PyVal.str p.2))).foldl
    (fun d p => dictInsert p.1 p.2 d) []

/-- Models `sample_metadata = metadata.loc[metadata[col] == x].iloc[0].to_dict()`:
the first metadata row whose join-key value is `x`. The caller guards this
with the membership test, so the empty-dict fallback is unreachable. -/
def sample_metadata (m : Metadata) (x : PyStr) : PyDict :=
  match m.rows.find? (fun r => r.getD 0 [] == x) with
  | some r => metaRowDict m r
  | none => []

/-- The seven fixed classification keys of an aggregated record, in dict
insertion order. -/
def aggFixedHeaders : List PyStr :=
  ["Perc_frag_cover".data, "Nr_frag_cover".data, "Nr_frag_direct_at_taxon".data,
   "Rank_code".data, "NCBI_ID".data, "Scientific_name".data, "SampleID".data]

/-- The record-literal part of the dict built in `aggregate_kraken_results`
(before `**sample_metadata` is merged over it). -/
def aggBaseRecord (perc nrcov : PyStr) (n : Int) (rank ncbi sci sample : PyStr) : PyDict :=
  [("Perc_frag_cover".data, .str perc), ("Nr_frag_cover".data, .str nrcov),
   ("Nr_frag_direct_at_taxon".data, .int n), ("Rank_code".data, .str rank),
   ("NCBI_ID".data, .str ncbi), ("Scientific_name".data, .str sci),
   ("SampleID".data, .str sample)]

/-- The aggregated record: the seven classification fields with the metadata
row merged over them (`**sample_metadata` — a metadata column with the same
name overwrites the classification field). -/
def buildRecord (perc nrcov : PyStr) (n : Int) (rank ncbi sci sample : PyStr)
    (meta : PyDict) : PyDict :=
  meta.foldl (fun d p => dictInsert p.1 p.2 d)
    (aggBaseRecord perc nrcov n rank ncbi sci sample)

/-- The species rank-code family `['S', 'S1', 'S2', 'S3']`. -/
def species_ranks : List PyStr := ["S".data, "S1".data, "S2".data, "S3".data]

/-- The tab fields of one report line: `line.strip().split('\t')`. -/
def lineFields (line : PyStr) : List PyStr := splitChar '\t' (pyStrip line)

/-- One line of the `aggregate_kraken_results` scan: skip lines with fewer
than six tab fields; parse the count field as an integer (a failure is the
`ValueError` carrying the bad field text, which aborts the scan); keep the
row only if its rank code is in the species family, its count lies in the
inclusive `[read_count, max_read_count]` range and its sample identifier has
a metadata match; on acceptance overwrite the mapping entry at key
`extracted_part ++ ncbi_ID`. -/
def aggLine (m : Metadata) (read_count max_read_count : Int) (file_name : PyStr)
    (acc : List (PyStr × PyDict)) (line : PyStr) :
    Except PyStr (List (PyStr × PyDict)) :=
  if (lineFields line).length < 6 then .ok acc
  else
    match pyInt ((lineFields line).getD 2 []) with
    | none => .error ((lineFields line).getD 2 [])
    | some n =>
      if (lineFields line).getD 3 [] ∈ species_ranks
          ∧ read_count ≤ n ∧ n ≤ max_read_count then
        if extracted_part file_name ∈ firstColValues m then
          .ok (dictInsert (extracted_part file_name ++ (lineFields line).getD 4 [])
            (buildRecord ((lineFields line).getD 0 []) ((lineFields line).getD 1 []) n
              ((lineFields line).getD 3 []) ((lineFields line).getD 4 [])
              ((lineFields line).getD 5 []) (extracted_part file_name)
              (sample_metadata m (extracted_part file_name))) acc)
        else .ok acc
      else .ok acc

/-- One report file: its name and its lines. -/
structure KFile where
  name : PyStr
  lines : List PyStr

/-- The scan of one file's lines (stops at the first count-parse failure). -/
def aggLines (m : Metadata) (rc mrc : Int) (fname : PyStr) :
    List (PyStr × PyDict) → List PyStr → Except PyStr (List (PyStr × PyDict))
  | acc, [] => .ok acc
  | acc, l :: ls =>
    match aggLine m rc mrc fname acc l with
    | .error e => .error e
    | .ok acc' => aggLines m rc mrc fname acc' ls

/-- The scan of the directory listing: only files whose names end in
`_report.txt` are read. -/
def aggAll (m : Metadata) (rc mrc : Int) :
    List (PyStr × PyDict) → List KFile → Except PyStr (List (PyStr × PyDict))
  | acc, [] => .ok acc
  | acc, f :: fs =>
    if endsWithB "_report.txt".data f.name then
      match aggLines m rc mrc f.name acc f.lines with
      | .error e => .error e
      | .ok acc' => aggAll m rc mrc acc' fs
    else aggAll m rc mrc acc fs

/-- The merged table's header row: the seven classification columns followed
by the metadata columns other than the join key. -/
def aggHeaders (m : Metadata) : List PyStr := aggFixedHeaders ++ m.cols.drop 1

/-- The data rows written to the merged table: one stringified row per
record, in dict insertion order. -/
def aggTableRows (m : Metadata) (res : List (PyStr × PyDict)) : List (List PyStr) :=
  res.map (fun e => (aggHeaders m).map (fun h => pyValStr (dictGet e.2 h)))

/-- Models `aggregate_kraken_results`: on success the written table (header
row and data rows); any exception raised inside the call — in particular the
count-field `ValueError` — is caught by the function's own handler, logged,
and turned into `None` for the caller. -/
def aggregate_kraken_results (m : Metadata) (read_count max_read_count : Int)
    (files : List KFile) : Option (List PyStr × List (List PyStr)) :=
  match aggAll m read_count max_read_count [] files with
  | .error _ => none
  | .ok res => some (aggHeaders m, aggTableRows m res)

/-- The data rows of an aggregation result (`[]` when the call returned
`None`). -/
def aggRowsOf : Option (List PyStr × List (List PyStr)) → List (List PyStr)
  | some (_, rows) => rows
  | none => []

/-- The header row of an aggregation result (`[]` when the call returned
`None`). -/
def aggHdrsOf : Option (List PyStr × List (List PyStr)) → List PyStr
  | some (hdrs, _) => hdrs
  | none => []

/-- C1: a parsed report row — at least six tab fields, count field parsing to
the integer `n` — updates the aggregation mapping (overwriting the entry at
key `extracted_part ++ ncbi_ID` with the joined record) if and only if its
rank code is one of `S, S1, S2, S3`, its count satisfies
`read_count ≤ n ≤ max_read_count` (both bounds inclusive), and its derived
sample identifier occurs in the metadata table's first column; otherwise the
mapping is returned unchanged. -/
theorem aggLine_filter (m : Metadata) (rc mrc : Int) (fname line : PyStr)
    (acc : List (PyStr × PyDict)) (n : Int)
    (hlen : 6 ≤ (lineFields line).length)
    (hint : pyInt ((lineFields line).getD 2 []) = some n) :
    aggLine m rc mrc fname acc line
      = .ok (if (lineFields line).getD 3 [] ∈ species_ranks ∧ rc ≤ n ∧ n ≤ mrc
              ∧ extracted_part fname ∈ firstColValues m
          then dictInsert (extracted_part fname ++ (lineFields line).getD 4 [])
            (buildRecord ((lineFields line).getD 0 []) ((lineFields line).getD 1 []) n
              ((lineFields line).getD 3 []) ((lineFields line).getD 4 [])
              ((lineFields line).getD 5 []) (extracted_part fname)
              (sample_metadata m (extracted_part fname))) acc
          else acc) := by
  simp only [aggLine, hint]
  rw [if_neg (show ¬(lineFields line).length < 6 by omega)]
  by_cases h1 : (lineFields line).getD 3 [] ∈ species_ranks ∧ rc ≤ n ∧ n ≤ mrc
  · rw [if_pos h1]
    by_cases h2 : extracted_part fname ∈ firstColValues m
    · rw [if_pos h2, if_pos ⟨h1.1, h1.2.1, h1.2.2, h2⟩]
    · rw [if_neg h2, if_neg (fun hc => h2 hc.2.2.2)]
  · rw [if_neg h1, if_neg (fun hc => h1 ⟨hc.1, hc.2.1, hc.2.2.1⟩)]

/-- Witness for C1 at the lower read-count boundary: `n = 5` with
`read_count = 5`, `max_read_count = 10` (the row is kept). -/
theorem aggLine_filter_witness :
    (6 ≤ (lineFields "0.1\t9\t5\tS\t1234\tEc".data).length ∧
      pyInt ((lineFields "0.1\t9\t5\tS\t1234\tEc".data).getD 2 []) = some 5) ∧
    aggLine ⟨["Sample_ID".data], [["A_1".data]]⟩ 5 10 "A_1_kraken_report.txt".data []
        "0.1\t9\t5\tS\t1234\tEc".data
      = .ok (if (lineFields "0.1\t9\t5\tS\t1234\tEc".data).getD 3 [] ∈ species_ranks
              ∧ (5 : Int) ≤ 5 ∧ (5 : Int) ≤ 10
              ∧ extracted_part "A_1_kraken_report.txt".data
                  ∈ firstColValues ⟨["Sample_ID".data], [["A_1".data]]⟩
          then dictInsert
            (extracted_part "A_1_kraken_report.txt".data
              ++ (lineFields "0.1\t9\t5\tS\t1234\tEc".data).getD 4 [])
            (buildRecord ((lineFields "0.1\t9\t5\tS\t1234\tEc".data).getD 0 [])
              ((lineFields "0.1\t9\t5\tS\t1234\tEc".data).getD 1 []) 5
              ((lineFields "0.1\t9\t5\tS\t1234\tEc".data).getD 3 [])
              ((lineFields "0.1\t9\t5\tS\t1234\tEc".data).getD 4 [])
              ((lineFields "0.1\t9\t5\tS\t1234\tEc".data).getD 5 [])
              (extracted_part "A_1_kraken_report.txt".data)
              (sample_metadata ⟨["Sample_ID".data], [["A_1".data]]⟩
                (extracted_part "A_1_kraken_report.txt".data))) []
          else []) :=
  ⟨⟨by decide, by decide⟩,
    aggLine_filter ⟨["Sample_ID".data], [["A_1".data]]⟩ 5 10
      "A_1_kraken_report.txt".data "0.1\t9\t5\tS\t1234\tEc".data [] 5
      (by decide) (by decide)⟩

/-- C5: evaluation of both per-domain filename builders. The kraken-report
path does produce canonical-identity + domain + suffix with the
duplicate-token correction, but `save_domain_data` (the output-report path)
names the file with the domain alone — no sample identity and no dedup —
contradicting its caller's documented naming scheme. -/
theorem domain_filename_divergence :
    save_domain_data_filename "Viruses".data = "Viruses_output_report.txt".data ∧
    kraken_domain_output_filename
        (clean_sample_name "A_1_kraken_report.txt".data domain_labels) "Viruses".data
      = "A_1_Viruses_kraken_report.txt".data := by decide

/-- C7: evaluation showing the divergence between the two line-parsing paths
on a four-field line. `process_output_report` skips it and keeps scanning,
and the aggregation scan skips it and completes, but the pandas-based
`extract_domains_from_kraken_report` pads it with missing values and keeps it
inside the current domain block. -/
theorem short_line_divergence :
    extract_domains_from_kraken_report
        [["10.0".data, "100".data, "100".data, "D".data, "2".data, "Bacteria".data],
         ["a".data, "b".data, "c".data, "U".data]]
      = [(some "Bacteria".data,
          [[some "10.0".data, some "100".data, some "100".data, some "D".data,
            some "2".data, some "Bacteria".data],
           [some "a".data, some "b".data, some "c".data, some "U".data, none, none]])] ∧
    process_output_report ["10.0\t100\t100\tD\t2\tBacteria".data, "a\tb\tc\tU".data]
      = [("Bacteria".data, ["10.0\t100\t100\tD\t2\tBacteria".data])] ∧
    aggAll ⟨["Sample_ID".data], [["A".data]]⟩ 1 1000 []
        [⟨"A_kraken_report.txt".data, ["a\tb\tc\tU".data]⟩] = .ok [] :=
  ⟨by decide, by decide, by decide⟩

theorem aggLine_ok_of_not_bad (m : Metadata) (rc mrc : Int) (fname : PyStr)
    (acc : List (PyStr × PyDict)) (l : PyStr)
    (h : ¬(6 ≤ (lineFields l).length ∧ pyInt ((lineFields l).getD 2 []) = none)) :
    ∃ acc', aggLine m rc mrc fname acc l = .ok acc' := by
  by_cases h6 : (lineFields l).length < 6
  · exact ⟨acc, by simp [aggLine, h6]⟩
  · cases hint : pyInt ((lineFields l).getD 2 []) with
    | none => exact absurd ⟨by omega, hint⟩ h
    | some n =>
      simp only [aggLine, hint, if_neg h6]
      split
      · split
        · exact ⟨_, rfl⟩
        · exact ⟨acc, rfl⟩
      · exact ⟨acc, rfl⟩

theorem aggLines_error_at_bad (m : Metadata) (rc mrc : Int) (fname : PyStr)
    (post : List PyStr) (bad : PyStr)
    (hbadlen : 6 ≤ (lineFields bad).length)
    (hbadint : pyInt ((lineFields bad).getD 2 []) = none) :
    ∀ (pre : List PyStr),
      (∀ l ∈ pre, ¬(6 ≤ (lineFields l).length ∧ pyInt ((lineFields l).getD 2 []) = none)) →
      ∀ acc, aggLines m rc mrc fname acc (pre ++ bad :: post)
        = .error ((lineFields bad).getD 2 []) := by
  intro pre
  induction pre with
  | nil =>
    intro _ acc
    have hline : aggLine m rc mrc fname acc bad = .error ((lineFields bad).getD 2 []) := by
      simp only [aggLine, hbadint, if_neg (show ¬(lineFields bad).length < 6 by omega)]
    simp only [List.nil_append, aggLines, hline]
  | cons l pre' ih =>
    intro hpre acc
    obtain ⟨acc1, hacc1⟩ :=
      aggLine_ok_of_not_bad m rc mrc fname acc l (hpre l (List.mem_cons_self _ _))
    simp only [List.cons_append, aggLines, hacc1]
    exact ih (fun l' hl' => hpre l' (List.mem_cons_of_mem _ hl')) acc1

/-- C6 (amended): only the aggregation pass parses the count field. When a
qualifying report file contains a 6+-field line whose count field is not an
integer (and no earlier line of the file triggers the parse first), the
aggregation scan stops at that line with the `ValueError` carrying the bad
field text, and `aggregate_kraken_results` catches it internally, logs it and
returns `None` to its caller — the failure neither names the offending file
nor propagates as a typed failure. Segmentation never parses counts (see the
counterexample). -/
theorem aggregation_bad_count_swallowed (m : Metadata) (rc mrc : Int) (fname : PyStr)
    (pre post : List PyStr) (bad : PyStr)
    (hend : endsWithB "_report.txt".data fname = true)
    (hpre : ∀ l ∈ pre, ¬(6 ≤ (lineFields l).length ∧ pyInt ((lineFields l).getD 2 []) = none))
    (hbadlen : 6 ≤ (lineFields bad).length)
    (hbadint : pyInt ((lineFields bad).getD 2 []) = none) :
    aggAll m rc mrc [] [⟨fname, pre ++ bad :: post⟩]
        = .error ((lineFields bad).getD 2 []) ∧
    aggregate_kraken_results m rc mrc [⟨fname, pre ++ bad :: post⟩] = none := by
  have herr := aggLines_error_at_bad m rc mrc fname post bad hbadlen hbadint pre hpre []
  have h1 : aggAll m rc mrc [] [⟨fname, pre ++ bad :: post⟩]
      = .error ((lineFields bad).getD 2 []) := by
    unfold aggAll
    rw [if_pos hend, herr]
  refine ⟨h1, ?_⟩
  unfold aggregate_kraken_results
  rw [h1]

/-- Witness for C6's amended theorem at a one-line file with count field
`abc`. -/
theorem aggregation_bad_count_swallowed_witness :
    (endsWithB "_report.txt".data "A_kraken_report.txt".data = true ∧
      6 ≤ (lineFields "1\t2\tabc\tS\t5\tx".data).length ∧
      pyInt ((lineFields "1\t2\tabc\tS\t5\tx".data).getD 2 []) = none) ∧
    (aggAll ⟨["Sample_ID".data], [["A".data]]⟩ 1 100 []
        [⟨"A_kraken_report.txt".data, [] ++ "1\t2\tabc\tS\t5\tx".data :: []⟩]
        = .error ((lineFields "1\t2\tabc\tS\t5\tx".data).getD 2 []) ∧
      aggregate_kraken_results ⟨["Sample_ID".data], [["A".data]]⟩ 1 100
        [⟨"A_kraken_report.txt".data, [] ++ "1\t2\tabc\tS\t5\tx".data :: []⟩] = none) :=
  ⟨⟨by decide, by decide, by decide⟩,
    aggregation_bad_count_swallowed ⟨["Sample_ID".data], [["A".data]]⟩ 1 100
      "A_kraken_report.txt".data [] [] "1\t2\tabc\tS\t5\tx".data
      (by decide) (by simp) (by decide) (by decide)⟩

/-- Counterexample to C6 as stated: a report whose count fields (`abc`,
`xyz`) are not integers is segmented by `process_output_report` without any
failure — the call completes normally and emits the block, because
segmentation never parses the count field. -/
theorem segmentation_bad_count_no_failure :
    process_output_report
        ["1\t2\tabc\tD\t5\tViruses".data, "1\t2\txyz\tS\t6\tE coli".data]
      = [("Viruses".data,
          ["1\t2\tabc\tD\t5\tViruses".data, "1\t2\txyz\tS\t6\tE coli".data])] := by decide

theorem mem_keys_dictInsert {α β : Type} [DecidableEq α] (k a : α) (v : β)
    (d : List (α × β)) :
    a ∈ (dictInsert k v d).map Prod.fst ↔ a = k ∨ a ∈ d.map Prod.fst := by
  induction d with
  | nil => simp [dictInsert]
  | cons e d' ih =>
    obtain ⟨k', v'⟩ := e
    by_cases h : k' = k
    · subst h
      simp [dictInsert]
    · simp only [dictInsert, if_neg h, List.map_cons, List.mem_cons, ih]
      tauto

theorem nodup_keys_dictInsert {α β : Type} [DecidableEq α] (k : α) (v : β)
    (d : List (α × β)) (h : (d.map Prod.fst).Nodup) :
    ((dictInsert k v d).map Prod.fst).Nodup := by
  induction d with
  | nil => simp [dictInsert]
  | cons e d' ih =>
    obtain ⟨k', v'⟩ := e
    simp only [List.map_cons, List.nodup_cons] at h
    by_cases hk : k' = k
    · subst hk
      simpa [dictInsert] using h
    · simp only [dictInsert, if_neg hk, List.map_cons, List.nodup_cons]
      refine ⟨?_, ih h.2⟩
      intro hmem
      rcases (mem_keys_dictInsert k k' v d').mp hmem with he | hm
      · exact hk he
      · exact h.1 hm

theorem mem_dictInsert {α β : Type} [DecidableEq α] {k : α} {v : β}
    {d : List (α × β)} {e : α × β} (h : e ∈ dictInsert k v d) :
    e = (k, v) ∨ e ∈ d := by
  induction d with
  | nil => simpa [dictInsert] using h
  | cons p d' ih =>
    obtain ⟨k', v'⟩ := p
    by_cases hk : k' = k
    · subst hk
      simp only [dictInsert, if_pos rfl] at h
      rcases List.mem_cons.mp h with h1 | h1
      · exact Or.inl h1
      · exact Or.inr (List.mem_cons_of_mem _ h1)
    · simp only [dictInsert, if_neg hk] at h
      rcases List.mem_cons.mp h with h1 | h1
      · exact Or.inr (h1 ▸ List.mem_cons_self _ _)
      · rcases ih h1 with h2 | h2
        · exact Or.inl h2
        · exact Or.inr (List.mem_cons_of_mem _ h2)

theorem dictGet_foldl_ne (k : PyStr) :
    ∀ (kvs : List (PyStr × PyVal)) (base : PyDict),
      (∀ p ∈ kvs, p.1 ≠ k) →
      dictGet (kvs.foldl (fun d p => dictInsert p.1 p.2 d) base) k = dictGet base k := by
  intro kvs
  induction kvs with
  | nil => intro base _; rfl
  | cons p kvs' ih =>
    intro base h
    simp only [List.foldl_cons]
    rw [ih (dictInsert p.1 p.2 base) (fun q hq => h q (List.mem_cons_of_mem _ hq))]
    unfold dictGet
    rw [dictLookup_dictInsert_ne _ _ (fun he => h p (List.mem_cons_self _ _) he.symm)]

theorem mem_foldl_dictInsert {α β : Type} [DecidableEq α] :
    ∀ (kvs : List (α × β)) (base : List (α × β)) (e : α × β),
      e ∈ kvs.foldl (fun d p => dictInsert p.1 p.2 d) base →
      e ∈ base ∨ e.1 ∈ kvs.map Prod.fst := by
  intro kvs
  induction kvs with
  | nil => intro base e h; exact Or.inl h
  | cons p kvs' ih =>
    intro base e h
    simp only [List.foldl_cons] at h
    rcases ih (dictInsert p.1 p.2 base) e h with h1 | h1
    · rcases mem_dictInsert h1 with h2 | h2
      · right
        rw [h2]
        simp
      · exact Or.inl h2
    · right
      simp only [List.map_cons, List.mem_cons]
      exact Or.inr h1

theorem sample_metadata_keys (m : Metadata) (x : PyStr) :
    ∀ p ∈ sample_metadata m x, p.1 ∈ m.cols := by
  intro p hp
  unfold sample_metadata at hp
  cases hfind : m.rows.find? (fun r => r.getD 0 [] == x) with
  | none => rw [hfind] at hp; simp at hp
  | some r =>
    rw [hfind] at hp
    unfold metaRowDict at hp
    rcases mem_foldl_dictInsert _ _ _ hp with h1 | h1
    · simp at h1
    · rcases List.mem_map.mp h1 with ⟨q, hq, hqe⟩
      rcases List.mem_map.mp hq with ⟨z, hz, hze⟩
      have hz1 : z.1 ∈ m.cols := by
        obtain ⟨z1, z2⟩ := z
        exact (List.of_mem_zip hz).1
      rw [← hze] at hqe
      simpa [← hqe] using hz1

theorem buildRecord_get_sample (perc nrcov : PyStr) (n : Int)
    (rank ncbi sci sample : PyStr) (meta : PyDict)
    (h : ∀ p ∈ meta, p.1 ≠ "SampleID".data) :
    dictGet (buildRecord perc nrcov n rank ncbi sci sample meta) "SampleID".data
      = .str sample := by
  unfold buildRecord
  rw [dictGet_foldl_ne _ meta _ h]
  rfl

theorem buildRecord_get_ncbi (perc nrcov : PyStr) (n : Int)
    (rank ncbi sci sample : PyStr) (meta : PyDict)
    (h : ∀ p ∈ meta, p.1 ≠ "NCBI_ID".data) :
    dictGet (buildRecord perc nrcov n rank ncbi sci sample meta) "NCBI_ID".data
      = .str ncbi := by
  unfold buildRecord
  rw [dictGet_foldl_ne _ meta _ h]
  rfl

/-- The invariant of the aggregation accumulator under shadow-free metadata:
keys are distinct, and every entry's key is the concatenation of the
`SampleID` and `NCBI_ID` fields stored in its record. -/
def AggInv (acc : List (PyStr × PyDict)) : Prop :=
  ((acc.map Prod.fst).Nodup) ∧
  ∀ e ∈ acc, e.1 = pyValStr (dictGet e.2 "SampleID".data)
      ++ pyValStr (dictGet e.2 "NCBI_ID".data)

theorem aggLine_inv (m : Metadata)
    (hS : "SampleID".data ∉ m.cols) (hN : "NCBI_ID".data ∉ m.cols)
    (rc mrc : Int) (fname line : PyStr) (acc acc' : List (PyStr × PyDict))
    (hok : aggLine m rc mrc fname acc line = .ok acc') (hinv : AggInv acc) :
    AggInv acc' := by
  by_cases h6 : (lineFields line).length < 6
  · simp only [aggLine, if_pos h6, Except.ok.injEq] at hok
    exact hok ▸ hinv
  · cases hint : pyInt ((lineFields line).getD 2 []) with
    | none =>
      simp only [aggLine, if_neg h6, hint] at hok
      exact Except.noConfusion hok
    | some n =>
      simp only [aggLine, if_neg h6, hint] at hok
      split at hok
      · split at hok
        · simp only [Except.ok.injEq] at hok
          subst hok
          constructor
          · exact nodup_keys_dictInsert _ _ _ hinv.1
          · intro e he
            rcases mem_dictInsert he with h1 | h1
            · subst h1
              have hmS : ∀ p ∈ sample_metadata m (extracted_part fname),
                  p.1 ≠ "SampleID".data :=
                fun p hp he => hS (he ▸ sample_metadata_keys m _ p hp)
              have hmN : ∀ p ∈ sample_metadata m (extracted_part fname),
                  p.1 ≠ "NCBI_ID".data :=
                fun p hp he => hN (he ▸ sample_metadata_keys m _ p hp)
              simp only [buildRecord_get_sample _ _ _ _ _ _ _ _ hmS,
                buildRecord_get_ncbi _ _ _ _ _ _ _ _ hmN, pyValStr]
            · exact hinv.2 e h1
        · simp only [Except.ok.injEq] at hok
          exact hok ▸ hinv
      · simp only [Except.ok.injEq] at hok
        exact hok ▸ hinv

theorem aggLines_inv (m : Metadata)
    (hS : "SampleID".data ∉ m.cols) (hN : "NCBI_ID".data ∉ m.cols)
    (rc mrc : Int) (fname : PyStr) :
    ∀ (ls : List PyStr) (acc acc' : List (PyStr × PyDict)),
      aggLines m rc mrc fname acc ls = .ok acc' → AggInv acc → AggInv acc' := by
  intro ls
  induction ls with
  | nil =>
    intro acc acc' h hinv
    simp only [aggLines, Except.ok.injEq] at h
    exact h ▸ hinv
  | cons l ls' ih =>
    intro acc acc' h hinv
    cases hline : aggLine m rc mrc fname acc l with
    | error e => simp [aggLines, hline] at h
    | ok acc1 =>
      simp only [aggLines, hline] at h
      exact ih acc1 acc' h (aggLine_inv m hS hN rc mrc fname l acc acc1 hline hinv)

theorem aggAll_inv (m : Metadata)
    (hS : "SampleID".data ∉ m.cols) (hN : "NCBI_ID".data ∉ m.cols)
    (rc mrc : Int) :
    ∀ (files : List KFile) (acc acc' : List (PyStr × PyDict)),
      aggAll m rc mrc acc files = .ok acc' → AggInv acc → AggInv acc' := by
  intro files
  induction files with
  | nil =>
    intro acc acc' h hinv
    simp only [aggAll, Except.ok.injEq] at h
    exact h ▸ hinv
  | cons f fs ih =>
    intro acc acc' h hinv
    by_cases hend : endsWithB "_report.txt".data f.name = true
    · simp only [aggAll, if_pos hend] at h
      cases hfile : aggLines m rc mrc f.name acc f.lines with
      | error e => rw [hfile] at h; simp at h
      | ok acc1 =>
        rw [hfile] at h
        exact ih acc1 acc' h
          (aggLines_inv m hS hN rc mrc f.name f.lines acc acc1 hfile hinv)
    · simp only [aggAll, if_neg hend] at h
      exact ih acc acc' h hinv

theorem aggRow_getD6 (m : Metadata) (rec : PyDict) :
    ((aggHeaders m).map (fun h => pyValStr (dictGet rec h))).getD 6 []
      = pyValStr (dictGet rec "SampleID".data) := rfl

theorem aggRow_getD4 (m : Metadata) (rec : PyDict) :
    ((aggHeaders m).map (fun h => pyValStr (dictGet rec h))).getD 4 []
      = pyValStr (dictGet rec "NCBI_ID".data) := rfl

/-- C2 (amended): provided no metadata column is named `SampleID` or
`NCBI_ID`, the aggregated table contains no two rows with the same
`(SampleID, NCBI_ID)` pair: the accumulator is a mapping keyed by the
separator-less concatenation `sample_id + taxon_id`, a later row with the
same key silently overwrites the earlier record, and no summation occurs.
(The `**sample_metadata` merge lets a metadata column literally named
`NCBI_ID` or `SampleID` overwrite the classification field, which breaks the
claim as stated — see the counterexample.) -/
theorem aggregate_pair_unique (m : Metadata) (rc mrc : Int) (files : List KFile)
    (hS : "SampleID".data ∉ m.cols) (hN : "NCBI_ID".data ∉ m.cols)
    (hdrs : List PyStr) (rows : List (List PyStr))
    (hrun : aggregate_kraken_results m rc mrc files = some (hdrs, rows)) :
    rows.Pairwise
      (fun r1 r2 => ¬(r1.getD 6 [] = r2.getD 6 [] ∧ r1.getD 4 [] = r2.getD 4 [])) := by
  unfold aggregate_kraken_results at hrun
  cases hall : aggAll m rc mrc [] files with
  | error e => rw [hall] at hrun; exact Option.noConfusion hrun
  | ok res =>
    rw [hall] at hrun
    have hpair := Option.some.inj hrun
    have hrows : aggTableRows m res = rows := congrArg Prod.snd hpair
    have hinv : AggInv res :=
      aggAll_inv m hS hN rc mrc files [] res hall
        ⟨List.nodup_nil, fun e he => absurd he (List.not_mem_nil e)⟩
    subst hrows
    unfold aggTableRows
    rw [List.pairwise_map]
    have hkeys : res.Pairwise (fun a b => a.1 ≠ b.1) :=
      List.pairwise_map.mp hinv.1
    refine hkeys.imp_of_mem ?_
    intro a b ha hb hne hc
    apply hne
    rw [hinv.2 a ha, hinv.2 b hb]
    have h6 : pyValStr (dictGet a.2 "SampleID".data)
        = pyValStr (dictGet b.2 "SampleID".data) := by
      have := hc.1
      rwa [aggRow_getD6, aggRow_getD6] at this
    have h4 : pyValStr (dictGet a.2 "NCBI_ID".data)
        = pyValStr (dictGet b.2 "NCBI_ID".data) := by
      have := hc.2
      rwa [aggRow_getD4, aggRow_getD4] at this
    rw [h6, h4]

/-- Concrete shadow-free metadata table used to exercise the amended C2. -/
def c2wMeta : Metadata := ⟨["Sample_ID".data], [["A_1".data]]⟩

/-- Concrete report directory used to exercise the amended C2: one report
with two accepted species rows. -/
def c2wFiles : List KFile :=
  [⟨"A_1_kraken_report.txt".data,
    ["1.0\t10\t5\tS\t1\tTaxA".data, "2.0\t20\t6\tS\t2\tTaxB".data]⟩]

/-- The aggregation output on the shadow-free concrete run. -/
def c2wOut : Option (List PyStr × List (List PyStr)) :=
  aggregate_kraken_results c2wMeta 1 100 c2wFiles

/-- Witness for C2's amended theorem: a shadow-free metadata table and one
report with two accepted species rows. -/
theorem aggregate_pair_unique_witness :
    ("SampleID".data ∉ c2wMeta.cols ∧ "NCBI_ID".data ∉ c2wMeta.cols ∧
      aggregate_kraken_results c2wMeta 1 100 c2wFiles
        = some (aggHdrsOf c2wOut, aggRowsOf c2wOut)) ∧
    (aggRowsOf c2wOut).Pairwise
      (fun r1 r2 => ¬(r1.getD 6 [] = r2.getD 6 [] ∧ r1.getD 4 [] = r2.getD 4 [])) :=
  ⟨⟨by decide, by decide, by decide⟩,
    aggregate_pair_unique c2wMeta 1 100 c2wFiles (by decide) (by decide)
      (aggHdrsOf c2wOut) (aggRowsOf c2wOut) (by decide)⟩

/-- Metadata table whose join column is literally named `NCBI_ID` (its values
are the sample ids) — the shadowing input of the C2 counterexample. -/
def c2cMeta : Metadata := ⟨["NCBI_ID".data], [["A".data]]⟩

/-- Report directory of the C2 counterexample: one report classifying two
distinct taxa of sample `A`. -/
def c2cFiles : List KFile :=
  [⟨"A_kraken_report.txt".data,
    ["1.0\t10\t5\tS\t1\tTaxA".data, "2.0\t20\t6\tS\t2\tTaxB".data]⟩]

/-- Counterexample to C2 as stated: with the join column literally named
`NCBI_ID`, the `**sample_metadata` merge overwrites each record's `NCBI_ID`
classification field with the metadata value, so the rows for taxa `1` and
`2` of sample `A` both display the pair `(SampleID, NCBI_ID) = (A, A)` — two
output rows share the same pair. -/
theorem aggregate_pair_unique_cex :
    (aggregate_kraken_results c2cMeta 1 100 c2cFiles).isSome = true ∧
    ¬(aggRowsOf (aggregate_kraken_results c2cMeta 1 100 c2cFiles)).Pairwise
      (fun r1 r2 => ¬(r1.getD 6 [] = r2.getD 6 [] ∧ r1.getD 4 [] = r2.getD 4 [])) :=
  ⟨by decide, by decide⟩
